import Mathlib

set_option maxRecDepth 100000

/-!
Verification development for `scripts/generate_index.py`, a PEP 503 style
wheel-index generator.

Strings are modelled as `List Char` (Python `str` is a sequence of code
points; Lean `Char` is a unicode scalar value).  Python's `re` module is
modelled by a backtracking matcher specialised to the one pattern the
script uses, reproducing the engine's priority order: lazy `+?` groups try
the shortest prefix first, the greedy `*` tries the longest run first, and
the optional group tries the present alternative first.  `\d` and case
mapping are modelled on ASCII (the script's inputs are wheel filenames).
Filesystem effects are modelled by explicit data: the wheels directory is a
flag plus a list of file names, and the generator returns the pages it
would write.
-/

namespace GenerateIndex

abbrev Str := List Char

/-- Lexicographic comparison of strings by code point, `Bool`-valued; this is
Python's `<=` on `str`, used to model `sorted`. -/
def lexLe : Str → Str → Bool
  | [], _ => true
  | _ :: _, [] => false
  | a :: as, b :: bs =>
    if a < b then true
    else if b < a then false
    else lexLe as bs

/-- Python `sorted` (ascending).  `sorted` is stable, but on plain strings
elements comparing equal are the same string, so the output is the unique
sorted permutation of the input and the choice of algorithm is irrelevant;
insertion sort is structurally recursive, so terms evaluate in the kernel. -/
def pySorted (l : List Str) : List Str :=
  l.insertionSort (fun a b => lexLe a b = true)

/-- `html.escape` with `quote=True`: `&`, `<`, `>`, `"`, `'` are replaced by
entities.  The replacements are per-character, matching the sequential
`str.replace` calls (none of the replacement texts contains a character that
a later replacement rewrites). -/
def escapeChar (c : Char) : Str :=
  if c = '&' then ('&' :: 'a' :: 'm' :: 'p' :: ';' :: [])
  else if c = '<' then ('&' :: 'l' :: 't' :: ';' :: [])
  else if c = '>' then ('&' :: 'g' :: 't' :: ';' :: [])
  else if c = '"' then ('&' :: 'q' :: 'u' :: 'o' :: 't' :: ';' :: [])
  else if c = '\'' then ('&' :: '#' :: 'x' :: '2' :: '7' :: ';' :: [])
  else [c]

def escape (s : Str) : Str := (s.map escapeChar).flatten

/-- Python `str.rstrip("/")`: remove every trailing `/`. -/
def rstripSlash (s : Str) : Str := (s.reverse.dropWhile (fun c => c = '/')).reverse

/-- `"\n".join(lines)`. -/
def joinLines (lines : List Str) : Str := List.intercalate ['\n'] lines

/-- The character class `[-_.]` of the normalisation regex. -/
def isSepChar (c : Char) : Bool := c = '-' || c = '_' || c = '.'

/-- `re.sub(r"[-_.]+", "-", s)`: every maximal run of `-`, `_`, `.` becomes a
single `-`.  The flag records whether the previous character was part of such
a run (in which case further run characters are dropped). -/
def collapseSeps : Bool → Str → Str
  | _, [] => []
  | prevSep, c :: rest =>
    if isSepChar c then
      if prevSep then collapseSeps true rest
      else '-' :: collapseSeps true rest
    else c :: collapseSeps false rest

/-- `normalize_package_name`: collapse separator runs to `-`, then lowercase
(`str.lower`, modelled on ASCII by `Char.toLower`). -/
def normalize_package_name (name : Str) : Str :=
  (collapseSeps false name).map Char.toLower

/-! ### The wheel-filename regular expression

Pattern (from `parse_wheel_filename`):
`^(?P<name>.+?)-(?P<version>.+?)(?:-(?P<build>\d[0-9A-Za-z\.]*))?-(?P<python>.+?)-(?P<abi>.+?)-(?P<platform>.+?)\.whl$`
-/

/-- `.` of the pattern: any character except a newline. -/
def isDotChar (c : Char) : Bool := c ≠ '\n'

/-- `\d`, modelled as the ASCII digits `[0-9]`. -/
def isDigitChar (c : Char) : Bool := '0' ≤ c && c ≤ '9'

/-- The class `[0-9A-Za-z\.]`. -/
def isBuildChar (c : Char) : Bool :=
  isDigitChar c || ('A' ≤ c && c ≤ 'Z') || ('a' ≤ c && c ≤ 'z') || c = '.'

/-- All splittings of `s` into a nonempty prefix and the remaining suffix, in
order of increasing prefix length — the order in which a lazy `+?` group
offers candidates. -/
def splits1 : Str → List (Str × Str)
  | [] => []
  | c :: rest => ([c], rest) :: (splits1 rest).map (fun p => (c :: p.1, p.2))

/-- Candidates for a lazy `.+?` group: nonempty newline-free prefixes,
shortest first. -/
def dotSplits (s : Str) : List (Str × Str) :=
  (splits1 s).filter (fun p => p.1.all isDotChar)

/-- Candidates for a greedy `p*`: runs of characters satisfying `p`, longest
first — the order in which a greedy star backtracks. -/
def greedyStarSplits (p : Char → Bool) : Str → List (Str × Str)
  | [] => [([], [])]
  | c :: rest =>
    if p c then
      ((greedyStarSplits p rest).map (fun q => (c :: q.1, q.2))) ++ [([], c :: rest)]
    else [([], c :: rest)]

/-- First success of `f` along `l` — the backtracking engine's choice among
candidates offered in priority order. -/
def firstSome (f : α → Option β) : List α → Option β
  | [] => none
  | a :: as =>
    match f a with
    | some b => some b
    | none => firstSome f as

/-- Result of a successful match of the wheel pattern (group captures). -/
structure ParsedWheel where
  name : Str
  version : Str
  build : Option Str
  python : Str
  abi : Str
  platform : Str
deriving DecidableEq, Repr

/-- Continue a match at the `platform` candidate `fp`: after the platform
group the pattern requires the literal `.whl` and then `$`, which matches at
the end of the string or before a single trailing newline. -/
def matchPlatformStep (name version : Str) (build : Option Str) (python abi : Str)
    (fp : Str × Str) : Option ParsedWheel :=
  match fp.2 with
  | '.' :: 'w' :: 'h' :: 'l' :: t =>
    if t = [] ∨ t = ['\n'] then some ⟨name, version, build, python, abi, fp.1⟩
    else none
  | _ => none

/-- Continue a match at the `abi` candidate `ap`: a literal `-` must follow,
then the lazy `platform` group. -/
def matchAbiStep (name version : Str) (build : Option Str) (python : Str)
    (ap : Str × Str) : Option ParsedWheel :=
  match ap.2 with
  | '-' :: s2 => firstSome (matchPlatformStep name version build python ap.1) (dotSplits s2)
  | _ => none

/-- Continue a match at the `python` candidate `pp`: a literal `-` must
follow, then the lazy `abi` group. -/
def matchPythonStep (name version : Str) (build : Option Str)
    (pp : Str × Str) : Option ParsedWheel :=
  match pp.2 with
  | '-' :: s1 => firstSome (matchAbiStep name version build pp.1) (dotSplits s1)
  | _ => none

/-- Match `(?P<python>.+?)-(?P<abi>.+?)-(?P<platform>.+?)\.whl$` against `s`,
with the given captures for the earlier groups. -/
def matchTags (name version : Str) (build : Option Str) (s : Str) : Option ParsedWheel :=
  firstSome (matchPythonStep name version build) (dotSplits s)

/-- Continue a match at a candidate `bp` for the tail of the build group
(`c` is its leading digit): a literal `-` must follow, then the tags. -/
def matchBuildStep (name version : Str) (c : Char) (bp : Str × Str) : Option ParsedWheel :=
  match bp.2 with
  | '-' :: s3 => matchTags name version (some (c :: bp.1)) s3
  | _ => none

/-- The present alternative of the optional group:
`-(?P<build>\d[0-9A-Za-z\.]*)` followed by `-…tags…`. -/
def matchWithBuild (name version : Str) (afterV : Str) : Option ParsedWheel :=
  match afterV with
  | '-' :: c :: s2 =>
    if isDigitChar c then
      firstSome (matchBuildStep name version c) (greedyStarSplits isBuildChar s2)
    else none
  | _ => none

/-- Match the optional build group and everything after it: the present
alternative is tried first; only when it fails everywhere is the group
skipped and `-…tags…` matched directly. -/
def matchAfterVersion (name version : Str) (afterV : Str) : Option ParsedWheel :=
  match matchWithBuild name version afterV with
  | some r => some r
  | none =>
    match afterV with
    | '-' :: s2 => matchTags name version none s2
    | _ => none

/-- Continue a match at the `version` candidate `vp`. -/
def matchVersionStep (name : Str) (vp : Str × Str) : Option ParsedWheel :=
  matchAfterVersion name vp.1 vp.2

/-- Continue a match at the `name` candidate `np`: a literal `-` must follow,
then the lazy `version` group. -/
def matchNameStep (np : Str × Str) : Option ParsedWheel :=
  match np.2 with
  | '-' :: s1 => firstSome (matchVersionStep np.1) (dotSplits s1)
  | _ => none

/-- `re.match` of the whole wheel pattern against `filename`. -/
def reMatchWheel (filename : Str) : Option ParsedWheel :=
  firstSome matchNameStep (dotSplits filename)

/-- The one error the parser raises (`ValueError` with its message). -/
inductive WheelError where
  | InvalidFormat : Str → WheelError
deriving DecidableEq, Repr

/-- `parse_wheel_filename`: match the pattern; on failure raise
`InvalidFormat`; on success return the captures with the name normalised. -/
def parse_wheel_filename (filename : Str) : Except WheelError ParsedWheel :=
  match reMatchWheel filename with
  | none => .error (.InvalidFormat ("Invalid wheel filename: ".data ++ filename))
  | some r => .ok { r with name := normalize_package_name r.name }

/-! ### HTML generation -/

/-- One archive link line of a package page:
`f'  <a href="{escape(url)}">{escape(wheel)}</a><br/>'` with
`url = f"{normalized_base}/{wheel}"`. -/
def packageLinkLine (normalized_base wheel : Str) : Str :=
  "  <a href=\"".data ++ escape (normalized_base ++ '/' :: wheel) ++ "\">".data
    ++ escape wheel ++ "</a><br/>".data

/-- The fixed lines of a package page before the links. -/
def packageHeader (package_name : Str) : List Str :=
  ["<!DOCTYPE html>".data, "<html>".data, "<head>".data,
   "  <title>Links for ".data ++ package_name ++ "</title>".data,
   "</head>".data, "<body>".data,
   "  <h1>Links for ".data ++ package_name ++ "</h1>".data]

/-- The fixed lines closing either page. -/
def htmlFooter : List Str := ["</body>".data, "</html>".data]

/-- `generate_package_index`: the joined document, links over the sorted
wheels against the `/`-right-stripped base url. -/
def generate_package_index (package_name : Str) (wheels : List Str) (base_url : Str) : Str :=
  let normalized_base := rstripSlash base_url
  joinLines
    (packageHeader package_name
     ++ (pySorted wheels).map (fun wheel => packageLinkLine normalized_base wheel)
     ++ htmlFooter)

/-- One package link line of the root page:
`f'  <a href="{package}/">{package}</a><br/>'` — note: not escaped. -/
def rootLinkLine (package : Str) : Str :=
  "  <a href=\"".data ++ package ++ "/\">".data ++ package ++ "</a><br/>".data

/-- The fixed lines of the root page before the links. -/
def rootHeader : List Str :=
  ["<!DOCTYPE html>".data, "<html>".data, "<head>".data,
   "  <title>Simple Index</title>".data,
   "</head>".data, "<body>".data,
   "  <h1>Simple Index</h1>".data]

/-- `generate_root_index`: `sorted({normalize_package_name(p) for p in packages})`
is the ascending enumeration of the distinct normalised names, modelled as
sorting the deduplicated list (a sorted duplicate-free list is determined by
its members, so the set's iteration order is irrelevant). -/
def generate_root_index (packages : List Str) : Str :=
  let normalized_packages := pySorted (packages.map normalize_package_name).dedup
  joinLines (rootHeader ++ normalized_packages.map rootLinkLine ++ htmlFooter)

/-! ### The directory scan and `generate_indexes` -/

/-- The wheels directory as `generate_indexes` observes it: whether
`wheels_dir.exists()`, and the names of the regular files directly inside. -/
structure WheelsDir where
  dirExists : Bool
  files : List Str
deriving DecidableEq, Repr

/-- `wheels_dir.glob("*.whl")` membership for a file name: the name must end
in `.whl`, and `*` does not match a leading dot (hidden files are skipped by
glob). -/
def matchesGlobWhl (name : Str) : Bool :=
  (match name with
   | [] => false
   | c :: _ => decide (c ≠ '.')) && ".whl".data.isSuffixOf name

/-- The one fatal error (`FileNotFoundError`). -/
inductive GenError where
  | SourceNotFound : Str → GenError
deriving DecidableEq, Repr

/-- What a run of `generate_indexes` produces: the returned summary mapping
(`packages`, `wheel_files`) together with the files it writes (`pages` holds
one `(package directory name, page html)` entry per created package
subdirectory, `rootHtml` the root `index.html`). -/
structure Summary where
  packages : List (Str × List Str)
  wheel_files : List Str
  pages : List (Str × Str)
  rootHtml : Str
deriving DecidableEq, Repr

/-- `dict` lookup (Python dicts preserve insertion order; an assoc list keeps
that order). -/
def dictGet : List (Str × List Str) → Str → Option (List Str)
  | [], _ => none
  | (k', v) :: rest, k => if k' = k then some v else dictGet rest k

/-- `dict` assignment: replace in place when the key exists, else append. -/
def dictSet : List (Str × List Str) → Str → List Str → List (Str × List Str)
  | [], k, v => [(k, v)]
  | (k', v') :: rest, k, v =>
    if k' = k then (k, v) :: rest else (k', v') :: dictSet rest k v

/-- The loop body of `generate_indexes`: parse one filename; on success add
it (keeping both tuples sorted, as the code re-sorts on every insertion); on
`ValueError` print a warning and leave the accumulator unchanged. -/
def addWheel (acc : List (Str × List Str) × List Str) (wheelName : Str) :
    List (Str × List Str) × List Str :=
  match parse_wheel_filename wheelName with
  | .ok info =>
    let current := (dictGet acc.1 info.name).getD []
    (dictSet acc.1 info.name (pySorted (current ++ [wheelName])),
     pySorted (acc.2 ++ [wheelName]))
  | .error _ => acc

/-- `generate_indexes`: fail when the directory is missing; otherwise glob
`*.whl`, process the files in sorted order, write one page per package and
the root page, and return the summary. -/
def generate_indexes (wheels_dir : WheelsDir) (base_url : Str) : Except GenError Summary :=
  if !wheels_dir.dirExists then
    .error (.SourceNotFound "Wheels directory not found".data)
  else
    let wheel_files := pySorted (wheels_dir.files.filter matchesGlobWhl)
    let acc := wheel_files.foldl addWheel ([], [])
    .ok { packages := acc.1
          wheel_files := acc.2
          pages := acc.1.map (fun p => (p.1, generate_package_index p.1 p.2 base_url))
          rootHtml := generate_root_index (acc.1.map (fun p => p.1)) }

/-- The exit code of `main`: `FileNotFoundError` is caught and turned into
`sys.exit(1)`; the no-wheels warning path calls `sys.exit(0)`; the normal
path falls through (also exit code 0). -/
def mainExitCode (wheels_dir : WheelsDir) (base_url : Str) : Nat :=
  match generate_indexes wheels_dir base_url with
  | .error _ => 1
  | .ok _ => 0

/-- The characters the optional build group contributes to the filename. -/
def buildPart : Option Str → Str
  | none => []
  | some b => '-' :: b

/-- What a lazy `.+?` group captures: nonempty and newline-free. -/
def lazyGroupOk (p : Str) : Prop := p ≠ [] ∧ p.all isDotChar = true

/-- What the build group captures: a digit followed by `[0-9A-Za-z.]*`. -/
def buildOk : Option Str → Prop
  | none => True
  | some b => ∃ c bs, b = c :: bs ∧ isDigitChar c = true ∧ bs.all isBuildChar = true

/-- What the end anchor `$` may leave unconsumed. -/
def tailOk (t : Str) : Prop := t = [] ∨ t = ['\n']

/-- `WheelSplit s r t`: the captures `r` and the residual `t` describe one
way the wheel pattern can match the whole of `s`. -/
def WheelSplit (s : Str) (r : ParsedWheel) (t : Str) : Prop :=
  s = r.name ++ '-' :: (r.version ++ (buildPart r.build ++ '-' ::
        (r.python ++ '-' :: (r.abi ++ '-' ::
          (r.platform ++ '.' :: 'w' :: 'h' :: 'l' :: t))))) ∧
  lazyGroupOk r.name ∧ lazyGroupOk r.version ∧ buildOk r.build ∧
  lazyGroupOk r.python ∧ lazyGroupOk r.abi ∧ lazyGroupOk r.platform ∧ tailOk t

/-- The invariant the loop of `generate_indexes` maintains: every stored
tuple is sorted, every grouped filename is also recorded among the valid
wheels, and every grouped filename re-parses to its group's key. -/
def AccInv (acc : List (Str × List Str) × List Str) : Prop :=
  (∀ p ∈ acc.1, List.Pairwise (fun a b => lexLe a b = true) p.2) ∧
  (∀ p ∈ acc.1, ∀ f ∈ p.2, f ∈ acc.2) ∧
  (∀ p ∈ acc.1, ∀ f ∈ p.2,
    ∃ info, parse_wheel_filename f = Except.ok info ∧ info.name = p.1) ∧
  List.Pairwise (fun a b => lexLe a b = true) acc.2

/-- The dash-separated segments of a string (the spec's reading of a
filename's shape). -/
def dashSplit : Str → List Str
  | [] => [[]]
  | c :: rest =>
    if c = '-' then [] :: dashSplit rest
    else
      match dashSplit rest with
      | [] => [[c]]
      | seg :: segs => (c :: seg) :: segs

/-- The number of dash-separated segments of a string. -/
def dashSegments (s : Str) : Nat := (dashSplit s).length

/-- The packages of a run's summary (empty when the run failed). -/
def summaryPackages : Except GenError Summary → List (Str × List Str)
  | .ok s => s.packages
  | .error _ => []

/-- The root page of a run's summary (empty when the run failed). -/
def summaryRootHtml : Except GenError Summary → Str
  | .ok s => s.rootHtml
  | .error _ => []

/-- The package pages of a run's summary (empty when the run failed). -/
def summaryPages : Except GenError Summary → List (Str × Str)
  | .ok s => s.pages
  | .error _ => []

/-! ### `lexLe` is a linear order; `pySorted` sorts -/

theorem lexLe_cons (x y : Char) (as bs : Str) :
    lexLe (x :: as) (y :: bs) = true ↔ x < y ∨ (x = y ∧ lexLe as bs = true) := by
  simp only [lexLe]
  rcases lt_trichotomy x y with h | h | h
  · simp [h]
  · subst h; simp [lt_irrefl]
  · simp [asymm h, h, (ne_of_gt h)]

theorem lexLe_refl (a : Str) : lexLe a a = true := by
  induction a with
  | nil => rfl
  | cons c as ih => rw [lexLe_cons]; exact Or.inr ⟨rfl, ih⟩

theorem lexLe_trans : ∀ {a b c : Str},
    lexLe a b = true → lexLe b c = true → lexLe a c = true := by
  intro a
  induction a with
  | nil => intro b c _ _; rfl
  | cons x as ih =>
    intro b c hab hbc
    cases b with
    | nil => simp [lexLe] at hab
    | cons y bs =>
      cases c with
      | nil => simp [lexLe] at hbc
      | cons z cs =>
        rw [lexLe_cons] at hab hbc ⊢
        rcases hab with h1 | ⟨e1, h1⟩
        · rcases hbc with h2 | ⟨e2, _⟩
          · exact Or.inl (lt_trans h1 h2)
          · exact Or.inl (e2 ▸ h1)
        · subst e1
          rcases hbc with h2 | ⟨e2, h2⟩
          · exact Or.inl h2
          · exact Or.inr ⟨e2, ih h1 h2⟩

theorem lexLe_total (a : Str) : ∀ b, lexLe a b = true ∨ lexLe b a = true := by
  induction a with
  | nil => intro b; exact Or.inl rfl
  | cons x as ih =>
    intro b
    cases b with
    | nil => exact Or.inr rfl
    | cons y bs =>
      rcases lt_trichotomy x y with h | h | h
      · exact Or.inl ((lexLe_cons ..).mpr (Or.inl h))
      · subst h
        rcases ih bs with h | h
        · exact Or.inl ((lexLe_cons ..).mpr (Or.inr ⟨rfl, h⟩))
        · exact Or.inr ((lexLe_cons ..).mpr (Or.inr ⟨rfl, h⟩))
      · exact Or.inr ((lexLe_cons ..).mpr (Or.inl h))

theorem lexLe_antisymm : ∀ {a b : Str},
    lexLe a b = true → lexLe b a = true → a = b := by
  intro a
  induction a with
  | nil =>
    intro b _ hba
    cases b with
    | nil => rfl
    | cons y bs => simp [lexLe] at hba
  | cons x as ih =>
    intro b hab hba
    cases b with
    | nil => simp [lexLe] at hab
    | cons y bs =>
      rw [lexLe_cons] at hab hba
      rcases hab with h1 | ⟨e1, h1⟩
      · rcases hba with h2 | ⟨e2, _⟩
        · exact absurd (lt_trans h1 h2) (lt_irrefl x)
        · exact absurd h1 (e2 ▸ lt_irrefl y)
      · subst e1
        rcases hba with h2 | ⟨_, h2⟩
        · exact absurd h2 (lt_irrefl x)
        · rw [ih h1 h2]

theorem pySorted_perm (l : List Str) : (pySorted l).Perm l :=
  List.perm_insertionSort _ l

theorem pySorted_mem {f : Str} {l : List Str} : f ∈ pySorted l ↔ f ∈ l :=
  (pySorted_perm l).mem_iff

theorem pySorted_pairwise (l : List Str) :
    List.Pairwise (fun a b => lexLe a b = true) (pySorted l) := by
  haveI : IsTotal Str (fun a b => lexLe a b = true) := ⟨fun a b => lexLe_total a b⟩
  haveI : IsTrans Str (fun a b => lexLe a b = true) :=
    ⟨fun _ _ _ h1 h2 => lexLe_trans h1 h2⟩
  exact List.sorted_insertionSort _ l

/-! ### Case mapping and normalisation lemmas -/

theorem toNat_ofNat_valid {n : Nat} (h : n.isValidChar) : (Char.ofNat n).toNat = n := by
  simp [Char.ofNat, h, Char.ofNatAux, Char.toNat, UInt32.toNat]

theorem char_eq_iff_toNat {c d : Char} : c = d ↔ c.toNat = d.toNat :=
  ⟨fun h => h ▸ rfl, fun h => Char.eq_of_val_eq (UInt32.ext h)⟩

theorem toLower_toNat (c : Char) :
    (Char.toLower c).toNat =
      if 65 ≤ c.toNat ∧ c.toNat ≤ 90 then c.toNat + 32 else c.toNat := by
  simp only [Char.toLower]
  split
  · next h =>
    have hv : Nat.isValidChar (c.toNat + 32) := Or.inl (by omega)
    rw [toNat_ofNat_valid hv]
  · rfl

theorem toLower_eq_self {c : Char} (h : ¬(65 ≤ c.toNat ∧ c.toNat ≤ 90)) :
    Char.toLower c = c := by
  simp only [Char.toLower]
  split
  · next hc => exact absurd ⟨hc.1, hc.2⟩ h
  · rfl

theorem toLower_idem (c : Char) :
    Char.toLower (Char.toLower c) = Char.toLower c := by
  by_cases h : 65 ≤ c.toNat ∧ c.toNat ≤ 90
  · apply toLower_eq_self
    rw [toLower_toNat c, if_pos h]
    omega
  · simp [toLower_eq_self h]

theorem isSepChar_iff (c : Char) :
    isSepChar c = true ↔ (c.toNat = 45 ∨ c.toNat = 95 ∨ c.toNat = 46) := by
  simp [isSepChar, char_eq_iff_toNat,
    show ('-' : Char).toNat = 45 from rfl,
    show ('_' : Char).toNat = 95 from rfl,
    show ('.' : Char).toNat = 46 from rfl, or_assoc]

theorem isSepChar_toLower (c : Char) : isSepChar (Char.toLower c) = isSepChar c := by
  by_cases h : 65 ≤ c.toNat ∧ c.toNat ≤ 90
  · have h1 : (Char.toLower c).toNat = c.toNat + 32 := by rw [toLower_toNat, if_pos h]
    rw [Bool.eq_iff_iff, isSepChar_iff, isSepChar_iff, h1]
    omega
  · rw [toLower_eq_self h]

theorem isSepChar_dash : isSepChar '-' = true := rfl

theorem toLower_dash : Char.toLower '-' = '-' := rfl

theorem collapseSeps_map_toLower (s : Str) : ∀ b,
    collapseSeps b (s.map Char.toLower) = (collapseSeps b s).map Char.toLower := by
  induction s with
  | nil => intro b; rfl
  | cons c rest ih =>
    intro b
    cases hsep : isSepChar c with
    | true =>
      cases b with
      | true => simp [collapseSeps, isSepChar_toLower, hsep, ih]
      | false => simp [collapseSeps, isSepChar_toLower, hsep, ih, toLower_dash]
    | false => simp [collapseSeps, isSepChar_toLower, hsep, ih]

theorem collapseSeps_idem (s : Str) : ∀ b,
    collapseSeps b (collapseSeps b s) = collapseSeps b s := by
  induction s with
  | nil => intro b; rfl
  | cons c rest ih =>
    intro b
    cases hsep : isSepChar c with
    | false => simp [collapseSeps, hsep, ih false]
    | true =>
      cases b with
      | true => simp [collapseSeps, hsep, ih true]
      | false => simp [collapseSeps, hsep, isSepChar_dash, ih true]

/-- Normalisation is idempotent (shared helper; see the claim theorem). -/
theorem normalize_package_name_idem (x : Str) :
    normalize_package_name (normalize_package_name x) = normalize_package_name x := by
  unfold normalize_package_name
  rw [collapseSeps_map_toLower, collapseSeps_idem]
  simp [List.map_map, Function.comp_def, toLower_idem]

/-! ### Candidate-list lemmas for the matcher -/

theorem firstSome_eq_some {f : α → Option β} : ∀ {l : List α} {b : β},
    firstSome f l = some b → ∃ a ∈ l, f a = some b := by
  intro l
  induction l with
  | nil => intro b h; simp [firstSome] at h
  | cons a as ih =>
    intro b h
    cases hfa : f a with
    | some b' =>
      simp only [firstSome, hfa] at h
      exact ⟨a, List.mem_cons_self a as, hfa.trans h⟩
    | none =>
      simp only [firstSome, hfa] at h
      obtain ⟨x, hx, hfx⟩ := ih h
      exact ⟨x, List.mem_cons_of_mem a hx, hfx⟩

theorem firstSome_ne_none_of_mem {f : α → Option β} {l : List α} {a : α}
    (hmem : a ∈ l) (hfa : f a ≠ none) : firstSome f l ≠ none := by
  induction l with
  | nil => cases hmem
  | cons x xs ih =>
    cases hfx : f x with
    | some b => simp [firstSome, hfx]
    | none =>
      simp only [firstSome, hfx]
      rcases List.mem_cons.mp hmem with rfl | hmem'
      · exact absurd hfx hfa
      · exact ih hmem'

/-- Every element of `firstSome`'s input that precedes the chosen one maps to
`none`: the engine keeps the first viable candidate. -/
theorem firstSome_first {f : α → Option β} : ∀ {l : List α} {b : β},
    firstSome f l = some b →
    ∃ l1 a l2, l = l1 ++ a :: l2 ∧ f a = some b ∧ ∀ x ∈ l1, f x = none := by
  intro l
  induction l with
  | nil => intro b h; simp [firstSome] at h
  | cons x xs ih =>
    intro b h
    cases hfx : f x with
    | some b' =>
      simp only [firstSome, hfx] at h
      exact ⟨[], x, xs, rfl, hfx.trans h, by simp⟩
    | none =>
      simp only [firstSome, hfx] at h
      obtain ⟨l1, a, l2, heq, hfa, hnone⟩ := ih h
      refine ⟨x :: l1, a, l2, by rw [heq]; rfl, hfa, ?_⟩
      intro y hy
      rcases List.mem_cons.mp hy with rfl | hy'
      · exact hfx
      · exact hnone y hy'

theorem splits1_sound : ∀ {s p q : Str}, (p, q) ∈ splits1 s → s = p ++ q ∧ p ≠ [] := by
  intro s
  induction s with
  | nil => intro p q h; simp [splits1] at h
  | cons c rest ih =>
    intro p q h
    simp only [splits1, List.mem_cons, List.mem_map] at h
    rcases h with h | ⟨⟨p', q'⟩, hmem, heq⟩
    · rw [Prod.mk.injEq] at h
      obtain ⟨rfl, rfl⟩ := h
      exact ⟨rfl, by simp⟩
    · rw [Prod.mk.injEq] at heq
      obtain ⟨hp, hq⟩ := heq
      obtain ⟨hrec, hne⟩ := ih hmem
      subst hp hq
      exact ⟨by rw [hrec]; rfl, by simp⟩

theorem splits1_mem_of : ∀ (p q : Str), p ≠ [] → (p, q) ∈ splits1 (p ++ q) := by
  intro p
  induction p with
  | nil => intro q h; exact absurd rfl h
  | cons c p' ih =>
    intro q _
    cases p' with
    | nil => simp [splits1]
    | cons d p'' =>
      simp only [List.cons_append, splits1]
      apply List.mem_cons_of_mem
      exact List.mem_map.mpr ⟨(d :: p'', q), ih q (by simp), rfl⟩

/-- `splits1` offers prefixes in strictly increasing length order. -/
theorem splits1_pairwise (s : Str) :
    List.Pairwise (fun x y : Str × Str => x.1.length < y.1.length) (splits1 s) := by
  induction s with
  | nil => exact List.Pairwise.nil
  | cons c rest ih =>
    simp only [splits1]
    constructor
    · intro y hy
      obtain ⟨⟨p', q'⟩, hmem, heq⟩ := List.mem_map.mp hy
      have hne := (splits1_sound hmem).2
      have hpos : 0 < p'.length := List.length_pos.mpr hne
      rw [← heq]
      simpa using hpos
    · rw [List.pairwise_map]
      exact ih.imp (fun h => by simpa using Nat.succ_lt_succ h)

theorem dotSplits_sound {s p q : Str} (h : (p, q) ∈ dotSplits s) :
    s = p ++ q ∧ p ≠ [] ∧ p.all isDotChar = true := by
  obtain ⟨hmem, hall⟩ := List.mem_filter.mp h
  obtain ⟨heq, hne⟩ := splits1_sound hmem
  exact ⟨heq, hne, hall⟩

theorem dotSplits_mem {p : Str} (q : Str) (hne : p ≠ []) (hall : p.all isDotChar = true) :
    (p, q) ∈ dotSplits (p ++ q) :=
  List.mem_filter.mpr ⟨splits1_mem_of p q hne, hall⟩

theorem dotSplits_pairwise (s : Str) :
    List.Pairwise (fun x y : Str × Str => x.1.length < y.1.length) (dotSplits s) :=
  List.Pairwise.filter _ (splits1_pairwise s)

theorem greedyStarSplits_sound {pr : Char → Bool} : ∀ {s p q : Str},
    (p, q) ∈ greedyStarSplits pr s → s = p ++ q ∧ p.all pr = true := by
  intro s
  induction s with
  | nil =>
    intro p q h
    simp only [greedyStarSplits, List.mem_singleton, Prod.mk.injEq] at h
    obtain ⟨rfl, rfl⟩ := h
    exact ⟨rfl, rfl⟩
  | cons c rest ih =>
    intro p q h
    by_cases hc : pr c = true
    · simp only [greedyStarSplits, hc, if_pos, List.mem_append, List.mem_map,
        List.mem_singleton] at h
      rcases h with ⟨⟨p', q'⟩, hmem, heq⟩ | h
      · rw [Prod.mk.injEq] at heq
        obtain ⟨hp, hq⟩ := heq
        obtain ⟨hrec, hall⟩ := ih hmem
        subst hp hq
        refine ⟨by rw [hrec]; rfl, ?_⟩
        simp [List.all_cons, hc, hall]
      · rw [Prod.mk.injEq] at h
        obtain ⟨rfl, rfl⟩ := h
        exact ⟨rfl, rfl⟩
    · simp only [greedyStarSplits, hc, if_neg, Bool.false_eq_true, not_false_iff,
        List.mem_singleton, Prod.mk.injEq] at h
      obtain ⟨rfl, rfl⟩ := h
      exact ⟨rfl, rfl⟩

theorem greedyStarSplits_mem {pr : Char → Bool} : ∀ (p q : Str), p.all pr = true →
    (p, q) ∈ greedyStarSplits pr (p ++ q) := by
  intro p
  induction p with
  | nil =>
    intro q _
    cases q with
    | nil => simp [greedyStarSplits]
    | cons c rest =>
      simp only [List.nil_append, greedyStarSplits]
      by_cases hc : pr c = true
      · simp [hc]
      · simp [hc]
  | cons c p' ih =>
    intro q hall
    simp only [List.all_cons, Bool.and_eq_true] at hall
    simp only [List.cons_append, greedyStarSplits, hall.1, if_pos]
    exact List.mem_append_left _ (List.mem_map.mpr ⟨(p', q), ih q hall.2, rfl⟩)

/-! ### The declarative match relation and soundness of the matcher -/

theorem matchPlatformStep_sound {n v py ab : Str} {b : Option Str} {fp : Str × Str}
    {r : ParsedWheel} (h : matchPlatformStep n v b py ab fp = some r) :
    ∃ t, tailOk t ∧ fp.2 = '.' :: 'w' :: 'h' :: 'l' :: t ∧ r = ⟨n, v, b, py, ab, fp.1⟩ := by
  unfold matchPlatformStep at h
  split at h
  · next t heq =>
    split at h
    · next ht => exact ⟨t, ht, heq, (Option.some.inj h).symm⟩
    · simp at h
  · simp at h

theorem matchAbiStep_sound {n v py : Str} {b : Option Str} {ap : Str × Str}
    {r : ParsedWheel} (h : matchAbiStep n v b py ap = some r) :
    ∃ pl t, lazyGroupOk pl ∧ tailOk t ∧
      ap.2 = '-' :: (pl ++ '.' :: 'w' :: 'h' :: 'l' :: t) ∧ r = ⟨n, v, b, py, ap.1, pl⟩ := by
  unfold matchAbiStep at h
  split at h
  · next s2 heq =>
    obtain ⟨fp, hfp, h1⟩ := firstSome_eq_some h
    obtain ⟨hs2, hne, hall⟩ := dotSplits_sound hfp
    obtain ⟨t, ht, hfp2, hr⟩ := matchPlatformStep_sound h1
    refine ⟨fp.1, t, ⟨hne, hall⟩, ht, ?_, hr⟩
    rw [heq, hs2, hfp2]
  · simp at h

theorem matchPythonStep_sound {n v : Str} {b : Option Str} {pp : Str × Str}
    {r : ParsedWheel} (h : matchPythonStep n v b pp = some r) :
    ∃ ab pl t, lazyGroupOk ab ∧ lazyGroupOk pl ∧ tailOk t ∧
      pp.2 = '-' :: (ab ++ '-' :: (pl ++ '.' :: 'w' :: 'h' :: 'l' :: t)) ∧
      r = ⟨n, v, b, pp.1, ab, pl⟩ := by
  unfold matchPythonStep at h
  split at h
  · next s1 heq =>
    obtain ⟨ap, hap, h1⟩ := firstSome_eq_some h
    obtain ⟨hs1, hne, hall⟩ := dotSplits_sound hap
    obtain ⟨pl, t, hpl, ht, hap2, hr⟩ := matchAbiStep_sound h1
    refine ⟨ap.1, pl, t, ⟨hne, hall⟩, hpl, ht, ?_, hr⟩
    rw [heq, hs1, hap2]
  · simp at h

theorem matchTags_sound {n v : Str} {b : Option Str} {s : Str} {r : ParsedWheel}
    (h : matchTags n v b s = some r) :
    ∃ py ab pl t, lazyGroupOk py ∧ lazyGroupOk ab ∧ lazyGroupOk pl ∧ tailOk t ∧
      s = py ++ '-' :: (ab ++ '-' :: (pl ++ '.' :: 'w' :: 'h' :: 'l' :: t)) ∧
      r = ⟨n, v, b, py, ab, pl⟩ := by
  obtain ⟨pp, hpp, h1⟩ := firstSome_eq_some h
  obtain ⟨hs, hne, hall⟩ := dotSplits_sound hpp
  obtain ⟨ab, pl, t, hab, hpl, ht, hpp2, hr⟩ := matchPythonStep_sound h1
  refine ⟨pp.1, ab, pl, t, ⟨hne, hall⟩, hab, hpl, ht, ?_, hr⟩
  rw [hs, hpp2]

theorem matchBuildStep_sound {n v : Str} {c : Char} {bp : Str × Str} {r : ParsedWheel}
    (h : matchBuildStep n v c bp = some r) :
    ∃ py ab pl t, lazyGroupOk py ∧ lazyGroupOk ab ∧ lazyGroupOk pl ∧ tailOk t ∧
      bp.2 = '-' :: (py ++ '-' :: (ab ++ '-' :: (pl ++ '.' :: 'w' :: 'h' :: 'l' :: t))) ∧
      r = ⟨n, v, some (c :: bp.1), py, ab, pl⟩ := by
  unfold matchBuildStep at h
  split at h
  · next s3 heq =>
    obtain ⟨py, ab, pl, t, hpy, hab, hpl, ht, hs3, hr⟩ := matchTags_sound h
    exact ⟨py, ab, pl, t, hpy, hab, hpl, ht, by rw [heq, hs3], hr⟩
  · simp at h

theorem matchWithBuild_sound {n v afterV : Str} {r : ParsedWheel}
    (h : matchWithBuild n v afterV = some r) :
    ∃ c bs py ab pl t, isDigitChar c = true ∧ bs.all isBuildChar = true ∧
      lazyGroupOk py ∧ lazyGroupOk ab ∧ lazyGroupOk pl ∧ tailOk t ∧
      afterV = '-' :: c :: (bs ++ '-' :: (py ++ '-' :: (ab ++ '-' ::
        (pl ++ '.' :: 'w' :: 'h' :: 'l' :: t)))) ∧
      r = ⟨n, v, some (c :: bs), py, ab, pl⟩ := by
  unfold matchWithBuild at h
  split at h
  · next c s2 =>
    split at h
    · next hc =>
      obtain ⟨bp, hbp, h1⟩ := firstSome_eq_some h
      obtain ⟨hs2, hall⟩ := greedyStarSplits_sound hbp
      obtain ⟨py, ab, pl, t, hpy, hab, hpl, ht, hbp2, hr⟩ := matchBuildStep_sound h1
      exact ⟨c, bp.1, py, ab, pl, t, hc, hall, hpy, hab, hpl, ht,
        by rw [hs2, hbp2], hr⟩
    · simp at h
  · simp at h

theorem matchAfterVersion_sound {n v afterV : Str} {r : ParsedWheel}
    (h : matchAfterVersion n v afterV = some r) :
    r.name = n ∧ r.version = v ∧ buildOk r.build ∧
    lazyGroupOk r.python ∧ lazyGroupOk r.abi ∧ lazyGroupOk r.platform ∧
    ∃ t, tailOk t ∧
      afterV = buildPart r.build ++ '-' :: (r.python ++ '-' :: (r.abi ++ '-' ::
        (r.platform ++ '.' :: 'w' :: 'h' :: 'l' :: t))) := by
  unfold matchAfterVersion at h
  cases hwb : matchWithBuild n v afterV with
  | some r' =>
    rw [hwb] at h
    obtain rfl : r' = r := Option.some.inj h
    obtain ⟨c, bs, py, ab, pl, t, hc, hbs, hpy, hab, hpl, ht, hav, hr⟩ :=
      matchWithBuild_sound hwb
    subst hr
    exact ⟨rfl, rfl, ⟨c, bs, rfl, hc, hbs⟩, hpy, hab, hpl, t, ht, by rw [hav]; rfl⟩
  | none =>
    rw [hwb] at h
    dsimp only at h
    split at h
    · next s2 =>
      obtain ⟨py, ab, pl, t, hpy, hab, hpl, ht, hs2, hr⟩ := matchTags_sound h
      subst hr
      exact ⟨rfl, rfl, trivial, hpy, hab, hpl, t, ht, by rw [hs2]; rfl⟩
    · simp at h

/-- Soundness: a successful match yields a genuine decomposition of the
filename along the pattern. -/
theorem reMatchWheel_sound {s : Str} {r : ParsedWheel} (h : reMatchWheel s = some r) :
    ∃ t, WheelSplit s r t := by
  obtain ⟨np, hnp, h1⟩ := firstSome_eq_some h
  obtain ⟨hs, hne, hall⟩ := dotSplits_sound hnp
  unfold matchNameStep at h1
  split at h1
  · next s1 heq =>
    obtain ⟨vp, hvp, h2⟩ := firstSome_eq_some h1
    obtain ⟨hs1, hvne, hvall⟩ := dotSplits_sound hvp
    unfold matchVersionStep at h2
    obtain ⟨hrn, hrv, hrb, hrpy, hrab, hrpl, t, ht, hav⟩ := matchAfterVersion_sound h2
    refine ⟨t, ?_, ?_, ?_, hrb, hrpy, hrab, hrpl, ht⟩
    · rw [hs, heq, hs1, hav, hrn, hrv]
    · rw [hrn]; exact ⟨hne, hall⟩
    · rw [hrv]; exact ⟨hvne, hvall⟩
  · simp at h1

/-! ### Completeness: a valid decomposition makes each stage succeed -/

theorem matchPlatformStep_ne_none {n v py ab pl t : Str} {b : Option Str}
    (ht : tailOk t) :
    matchPlatformStep n v b py ab (pl, '.' :: 'w' :: 'h' :: 'l' :: t) ≠ none := by
  have hred : matchPlatformStep n v b py ab (pl, '.' :: 'w' :: 'h' :: 'l' :: t) =
      if t = [] ∨ t = ['\n'] then some ⟨n, v, b, py, ab, pl⟩ else none := rfl
  rw [hred, if_pos (show t = [] ∨ t = ['\n'] from ht)]
  simp

theorem matchAbiStep_ne_none {n v py ab pl t : Str} {b : Option Str}
    (hpl : lazyGroupOk pl) (ht : tailOk t) :
    matchAbiStep n v b py (ab, '-' :: (pl ++ '.' :: 'w' :: 'h' :: 'l' :: t)) ≠ none := by
  have hred : matchAbiStep n v b py (ab, '-' :: (pl ++ '.' :: 'w' :: 'h' :: 'l' :: t)) =
      firstSome (matchPlatformStep n v b py ab)
        (dotSplits (pl ++ '.' :: 'w' :: 'h' :: 'l' :: t)) := rfl
  rw [hred]
  exact firstSome_ne_none_of_mem (dotSplits_mem _ hpl.1 hpl.2) (matchPlatformStep_ne_none ht)

theorem matchPythonStep_ne_none {n v py ab pl t : Str} {b : Option Str}
    (hab : lazyGroupOk ab) (hpl : lazyGroupOk pl) (ht : tailOk t) :
    matchPythonStep n v b
      (py, '-' :: (ab ++ '-' :: (pl ++ '.' :: 'w' :: 'h' :: 'l' :: t))) ≠ none := by
  have hred : matchPythonStep n v b
      (py, '-' :: (ab ++ '-' :: (pl ++ '.' :: 'w' :: 'h' :: 'l' :: t))) =
      firstSome (matchAbiStep n v b py)
        (dotSplits (ab ++ '-' :: (pl ++ '.' :: 'w' :: 'h' :: 'l' :: t))) := rfl
  rw [hred]
  exact firstSome_ne_none_of_mem (dotSplits_mem _ hab.1 hab.2) (matchAbiStep_ne_none hpl ht)

theorem matchTags_ne_none {n v py ab pl t : Str} {b : Option Str}
    (hpy : lazyGroupOk py) (hab : lazyGroupOk ab) (hpl : lazyGroupOk pl) (ht : tailOk t) :
    matchTags n v b (py ++ '-' :: (ab ++ '-' :: (pl ++ '.' :: 'w' :: 'h' :: 'l' :: t))) ≠ none :=
  firstSome_ne_none_of_mem (dotSplits_mem _ hpy.1 hpy.2)
    (matchPythonStep_ne_none hab hpl ht)

theorem matchAfterVersion_ne_none {n v : Str} {bld : Option Str} {py ab pl t : Str}
    (hb : buildOk bld) (hpy : lazyGroupOk py) (hab : lazyGroupOk ab)
    (hpl : lazyGroupOk pl) (ht : tailOk t) :
    matchAfterVersion n v (buildPart bld ++ '-' :: (py ++ '-' :: (ab ++ '-' ::
      (pl ++ '.' :: 'w' :: 'h' :: 'l' :: t)))) ≠ none := by
  unfold matchAfterVersion
  cases bld with
  | none =>
    cases hwb : matchWithBuild n v ('-' :: (py ++ '-' :: (ab ++ '-' ::
        (pl ++ '.' :: 'w' :: 'h' :: 'l' :: t)))) with
    | some r =>
      simp only [buildPart, List.nil_append, hwb]
      simp
    | none =>
      simp only [buildPart, List.nil_append, hwb]
      exact matchTags_ne_none hpy hab hpl ht
  | some bb =>
    obtain ⟨c, bs, rfl, hc, hbs⟩ := hb
    cases hwb : matchWithBuild n v ('-' :: c :: (bs ++ '-' :: (py ++ '-' ::
        (ab ++ '-' :: (pl ++ '.' :: 'w' :: 'h' :: 'l' :: t))))) with
    | some r =>
      simp only [buildPart, List.cons_append, hwb]
      simp
    | none =>
      exfalso
      have hred : matchWithBuild n v ('-' :: c :: (bs ++ '-' :: (py ++ '-' ::
          (ab ++ '-' :: (pl ++ '.' :: 'w' :: 'h' :: 'l' :: t))))) =
          if isDigitChar c then
            firstSome (matchBuildStep n v c)
              (greedyStarSplits isBuildChar (bs ++ '-' :: (py ++ '-' ::
                (ab ++ '-' :: (pl ++ '.' :: 'w' :: 'h' :: 'l' :: t)))))
          else none := rfl
      rw [hred, if_pos hc] at hwb
      refine firstSome_ne_none_of_mem (greedyStarSplits_mem bs _ hbs) ?_ hwb
      have hred2 : matchBuildStep n v c (bs, '-' :: (py ++ '-' :: (ab ++ '-' ::
          (pl ++ '.' :: 'w' :: 'h' :: 'l' :: t)))) =
          matchTags n v (some (c :: bs)) (py ++ '-' :: (ab ++ '-' ::
            (pl ++ '.' :: 'w' :: 'h' :: 'l' :: t))) := rfl
      rw [hred2]
      exact matchTags_ne_none hpy hab hpl ht

theorem matchNameStep_ne_none {n v : Str} {bld : Option Str} {py ab pl t : Str}
    (hv : lazyGroupOk v) (hb : buildOk bld) (hpy : lazyGroupOk py)
    (hab : lazyGroupOk ab) (hpl : lazyGroupOk pl) (ht : tailOk t) :
    matchNameStep (n, '-' :: (v ++ (buildPart bld ++ '-' :: (py ++ '-' :: (ab ++ '-' ::
      (pl ++ '.' :: 'w' :: 'h' :: 'l' :: t)))))) ≠ none := by
  have hred : matchNameStep (n, '-' :: (v ++ (buildPart bld ++ '-' :: (py ++ '-' ::
      (ab ++ '-' :: (pl ++ '.' :: 'w' :: 'h' :: 'l' :: t)))))) =
      firstSome (matchVersionStep n)
        (dotSplits (v ++ (buildPart bld ++ '-' :: (py ++ '-' :: (ab ++ '-' ::
          (pl ++ '.' :: 'w' :: 'h' :: 'l' :: t)))))) := rfl
  rw [hred]
  refine firstSome_ne_none_of_mem (dotSplits_mem _ hv.1 hv.2) ?_
  have hred2 : matchVersionStep n (v, buildPart bld ++ '-' :: (py ++ '-' :: (ab ++ '-' ::
      (pl ++ '.' :: 'w' :: 'h' :: 'l' :: t)))) =
      matchAfterVersion n v (buildPart bld ++ '-' :: (py ++ '-' :: (ab ++ '-' ::
        (pl ++ '.' :: 'w' :: 'h' :: 'l' :: t)))) := rfl
  rw [hred2]
  exact matchAfterVersion_ne_none hb hpy hab hpl ht

/-! ### Minimality: the engine returns the highest-priority decomposition -/

/-- Among candidates offered in strictly increasing prefix-length order, the
one the engine keeps is no longer than any viable candidate. -/
theorem firstSome_min_length {f : Str × Str → Option ParsedWheel} {l : List (Str × Str)}
    {b : ParsedWheel}
    (hord : List.Pairwise (fun x y : Str × Str => x.1.length < y.1.length) l)
    (h : firstSome f l = some b) {a : Str × Str} (ha : a ∈ l) (hfa : f a ≠ none) :
    ∃ ch, ch ∈ l ∧ f ch = some b ∧ ch.1.length ≤ a.1.length := by
  obtain ⟨l1, x, l2, rfl, hfx, hnone⟩ := firstSome_first h
  refine ⟨x, by simp, hfx, ?_⟩
  rcases List.mem_append.mp ha with h1 | h2
  · exact absurd (hnone a h1) hfa
  · rcases List.mem_cons.mp h2 with rfl | h3
    · exact le_refl _
    · have hp := (List.pairwise_append.mp hord).2.1
      exact le_of_lt (List.rel_of_pairwise_cons hp h3)

theorem matchPythonStep_python {n v : Str} {b : Option Str} {pp : Str × Str}
    {r : ParsedWheel} (h : matchPythonStep n v b pp = some r) : r.python = pp.1 := by
  obtain ⟨ab, pl, t, _, _, _, _, hr⟩ := matchPythonStep_sound h
  rw [hr]

theorem matchAbiStep_abi {n v py : Str} {b : Option Str} {ap : Str × Str}
    {r : ParsedWheel} (h : matchAbiStep n v b py ap = some r) : r.abi = ap.1 := by
  obtain ⟨pl, t, _, _, _, hr⟩ := matchAbiStep_sound h
  rw [hr]

/-- Minimality at the tags: `python`, and then `abi`, take the shortest
prefixes compatible with any full match of the remaining text. -/
theorem matchTags_min {n v : Str} {b : Option Str} {s2 : Str} {r : ParsedWheel}
    (h : matchTags n v b s2 = some r)
    {py' ab' pl' t' : Str}
    (hpy' : lazyGroupOk py') (hab' : lazyGroupOk ab') (hpl' : lazyGroupOk pl')
    (ht' : tailOk t')
    (hs2 : s2 = py' ++ '-' :: (ab' ++ '-' :: (pl' ++ '.' :: 'w' :: 'h' :: 'l' :: t'))) :
    r.python.length ≤ py'.length ∧ (py' = r.python → r.abi.length ≤ ab'.length) := by
  have hmem' : (py', '-' :: (ab' ++ '-' :: (pl' ++ '.' :: 'w' :: 'h' :: 'l' :: t')))
      ∈ dotSplits s2 := by
    rw [hs2]; exact dotSplits_mem _ hpy'.1 hpy'.2
  obtain ⟨pp, hpp, hfpp, hlen⟩ := firstSome_min_length (dotSplits_pairwise s2) h hmem'
    (matchPythonStep_ne_none hab' hpl' ht')
  have hpy : r.python = pp.1 := matchPythonStep_python hfpp
  constructor
  · rw [hpy]; exact hlen
  · intro hpyeq
    -- the chosen python equals `py'`, so the texts after it agree
    have hpp1 : pp.1 = py' := hpy.symm.trans hpyeq.symm
    have hs2' : s2 = pp.1 ++ pp.2 := (dotSplits_sound hpp).1
    have hpp2 : pp.2 = '-' :: (ab' ++ '-' :: (pl' ++ '.' :: 'w' :: 'h' :: 'l' :: t')) := by
      have hcat : pp.1 ++ pp.2 =
          pp.1 ++ '-' :: (ab' ++ '-' :: (pl' ++ '.' :: 'w' :: 'h' :: 'l' :: t')) := by
        rw [← hs2', hs2, hpp1]
      exact List.append_cancel_left hcat
    unfold matchPythonStep at hfpp
    split at hfpp
    · next s1 heq =>
      have hs1 : s1 = ab' ++ '-' :: (pl' ++ '.' :: 'w' :: 'h' :: 'l' :: t') :=
        (List.cons.inj (heq.symm.trans hpp2)).2
      have hmem2 : (ab', '-' :: (pl' ++ '.' :: 'w' :: 'h' :: 'l' :: t'))
          ∈ dotSplits s1 := by
        rw [hs1]; exact dotSplits_mem _ hab'.1 hab'.2
      obtain ⟨ap, hap, hfap, hlen2⟩ := firstSome_min_length (dotSplits_pairwise s1) hfpp
        hmem2 (matchAbiStep_ne_none hpl' ht')
      have hab : r.abi = ap.1 := matchAbiStep_abi hfap
      rw [hab]; exact hlen2
    · simp at hfpp

theorem matchWithBuild_tags {n v afterV : Str} {r : ParsedWheel}
    (h : matchWithBuild n v afterV = some r) :
    ∃ c bs s3, isDigitChar c = true ∧ bs.all isBuildChar = true ∧
      afterV = '-' :: c :: (bs ++ '-' :: s3) ∧ r.build = some (c :: bs) ∧
      matchTags n v (some (c :: bs)) s3 = some r := by
  unfold matchWithBuild at h
  split at h
  · next c s2 =>
    split at h
    · next hc =>
      obtain ⟨bp, hbp, h1⟩ := firstSome_eq_some h
      obtain ⟨hs2, hall⟩ := greedyStarSplits_sound hbp
      unfold matchBuildStep at h1
      split at h1
      · next s3 heq =>
        refine ⟨c, bp.1, s3, hc, hall, by rw [hs2, heq], ?_, h1⟩
        obtain ⟨py, ab, pl, t, _, _, _, _, _, hr⟩ := matchTags_sound h1
        rw [hr]
      · simp at h1
    · simp at h
  · simp at h

/-- Minimality below the version: provided the build capture agrees,
`python` and `abi` take the shortest compatible prefixes. -/
theorem matchAfterVersion_min {n v afterV : Str} {r : ParsedWheel}
    (h : matchAfterVersion n v afterV = some r)
    {bld' : Option Str} {py' ab' pl' t' : Str}
    (hpy' : lazyGroupOk py') (hab' : lazyGroupOk ab') (hpl' : lazyGroupOk pl')
    (ht' : tailOk t')
    (hav : afterV = buildPart bld' ++ '-' :: (py' ++ '-' :: (ab' ++ '-' ::
      (pl' ++ '.' :: 'w' :: 'h' :: 'l' :: t'))))
    (hbld : bld' = r.build) :
    r.python.length ≤ py'.length ∧ (py' = r.python → r.abi.length ≤ ab'.length) := by
  unfold matchAfterVersion at h
  cases hwb : matchWithBuild n v afterV with
  | some r2 =>
    rw [hwb] at h
    dsimp only at h
    obtain rfl : r2 = r := Option.some.inj h
    obtain ⟨c, bs, s3, hc, hbs, hav2, hbuild, htags⟩ := matchWithBuild_tags hwb
    rw [hbuild] at hbld
    subst hbld
    simp only [buildPart, List.cons_append] at hav
    have hchunk : s3 = py' ++ '-' :: (ab' ++ '-' ::
        (pl' ++ '.' :: 'w' :: 'h' :: 'l' :: t')) := by
      have h0 := hav2.symm.trans hav
      have h1 := (List.cons.inj h0).2
      have h2 := (List.cons.inj h1).2
      exact (List.cons.inj (List.append_cancel_left h2)).2
    exact matchTags_min htags hpy' hab' hpl' ht' hchunk
  | none =>
    rw [hwb] at h
    dsimp only at h
    split at h
    · next s2 =>
      have hbnone : r.build = none := by
        obtain ⟨py, ab, pl, t, _, _, _, _, _, hr⟩ := matchTags_sound h
        rw [hr]
      rw [hbnone] at hbld
      subst hbld
      simp only [buildPart, List.nil_append] at hav
      have hchunk : s2 = py' ++ '-' :: (ab' ++ '-' ::
          (pl' ++ '.' :: 'w' :: 'h' :: 'l' :: t')) := (List.cons.inj hav).2
      exact matchTags_min h hpy' hab' hpl' ht' hchunk
    · simp at h

theorem matchNameStep_name {np : Str × Str} {r : ParsedWheel}
    (h : matchNameStep np = some r) : r.name = np.1 := by
  unfold matchNameStep at h
  split at h
  · next s1 heq =>
    obtain ⟨vp, hvp, h2⟩ := firstSome_eq_some h
    have h2' : matchAfterVersion np.1 vp.1 vp.2 = some r := h2
    exact (matchAfterVersion_sound h2').1
  · simp at h

/-- Among all decompositions of `s` along the pattern, the engine's `name`
capture is shortest. -/
theorem reMatchWheel_min_name {s : Str} {r : ParsedWheel} (h : reMatchWheel s = some r)
    {r' : ParsedWheel} {t' : Str} (h' : WheelSplit s r' t') :
    r.name.length ≤ r'.name.length := by
  obtain ⟨heq', hn', hv', hb', hpy', hab', hpl', ht'⟩ := h'
  unfold reMatchWheel at h
  have hmem' : (r'.name, '-' :: (r'.version ++ (buildPart r'.build ++ '-' ::
      (r'.python ++ '-' :: (r'.abi ++ '-' ::
        (r'.platform ++ '.' :: 'w' :: 'h' :: 'l' :: t')))))) ∈ dotSplits s := by
    rw [heq']; exact dotSplits_mem _ hn'.1 hn'.2
  obtain ⟨np, hnp, hfnp, hlen⟩ := firstSome_min_length (dotSplits_pairwise s) h hmem'
    (matchNameStep_ne_none hv' hb' hpy' hab' hpl' ht')
  have hname : r.name = np.1 := matchNameStep_name hfnp
  rw [hname]; exact hlen

/-- Among the decompositions sharing the engine's `name` capture, the
`version` capture is shortest; with the version and build captures also
fixed, `python` and then `abi` are shortest. -/
theorem reMatchWheel_min_rest {s : Str} {r : ParsedWheel} (h : reMatchWheel s = some r)
    {r' : ParsedWheel} {t' : Str} (h' : WheelSplit s r' t') (hname : r'.name = r.name) :
    r.version.length ≤ r'.version.length ∧
    (r'.version = r.version → r'.build = r.build →
      r.python.length ≤ r'.python.length ∧
      (r'.python = r.python → r.abi.length ≤ r'.abi.length)) := by
  obtain ⟨heq', hn', hv', hb', hpy', hab', hpl', ht'⟩ := h'
  unfold reMatchWheel at h
  obtain ⟨np, hnp, hfnp⟩ := firstSome_eq_some h
  have hrname : r.name = np.1 := matchNameStep_name hfnp
  have hs : s = np.1 ++ np.2 := (dotSplits_sound hnp).1
  have hnp2 : np.2 = '-' :: (r'.version ++ (buildPart r'.build ++ '-' ::
      (r'.python ++ '-' :: (r'.abi ++ '-' ::
        (r'.platform ++ '.' :: 'w' :: 'h' :: 'l' :: t'))))) := by
    have hcat : np.1 ++ np.2 = np.1 ++ '-' :: (r'.version ++ (buildPart r'.build ++ '-' ::
        (r'.python ++ '-' :: (r'.abi ++ '-' ::
          (r'.platform ++ '.' :: 'w' :: 'h' :: 'l' :: t'))))) := by
      rw [← hs, heq', hname, hrname]
    exact List.append_cancel_left hcat
  unfold matchNameStep at hfnp
  split at hfnp
  · next s1 heq =>
    have hs1 : s1 = r'.version ++ (buildPart r'.build ++ '-' ::
        (r'.python ++ '-' :: (r'.abi ++ '-' ::
          (r'.platform ++ '.' :: 'w' :: 'h' :: 'l' :: t')))) :=
      (List.cons.inj (heq.symm.trans hnp2)).2
    have hmem2 : (r'.version, buildPart r'.build ++ '-' ::
        (r'.python ++ '-' :: (r'.abi ++ '-' ::
          (r'.platform ++ '.' :: 'w' :: 'h' :: 'l' :: t')))) ∈ dotSplits s1 := by
      rw [hs1]; exact dotSplits_mem _ hv'.1 hv'.2
  -- the version candidate of the alternative decomposition is viable
    have hviable : matchVersionStep np.1 (r'.version, buildPart r'.build ++ '-' ::
        (r'.python ++ '-' :: (r'.abi ++ '-' ::
          (r'.platform ++ '.' :: 'w' :: 'h' :: 'l' :: t')))) ≠ none := by
      have hred : matchVersionStep np.1 (r'.version, buildPart r'.build ++ '-' ::
          (r'.python ++ '-' :: (r'.abi ++ '-' ::
            (r'.platform ++ '.' :: 'w' :: 'h' :: 'l' :: t')))) =
          matchAfterVersion np.1 r'.version (buildPart r'.build ++ '-' ::
            (r'.python ++ '-' :: (r'.abi ++ '-' ::
              (r'.platform ++ '.' :: 'w' :: 'h' :: 'l' :: t')))) := rfl
      rw [hred]
      exact matchAfterVersion_ne_none hb' hpy' hab' hpl' ht'
    obtain ⟨vp, hvp, hfvp, hlen⟩ := firstSome_min_length (dotSplits_pairwise s1) hfnp
      hmem2 hviable
    have hfvp' : matchAfterVersion np.1 vp.1 vp.2 = some r := hfvp
    have hrversion : r.version = vp.1 := (matchAfterVersion_sound hfvp').2.1
    constructor
    · rw [hrversion]; exact hlen
    · intro hveq hbeq
      have hvp1 : vp.1 = r'.version := hrversion.symm.trans hveq.symm
      have hs1' : s1 = vp.1 ++ vp.2 := (dotSplits_sound hvp).1
      have hvp2 : vp.2 = buildPart r'.build ++ '-' ::
          (r'.python ++ '-' :: (r'.abi ++ '-' ::
            (r'.platform ++ '.' :: 'w' :: 'h' :: 'l' :: t'))) := by
        have hcat : vp.1 ++ vp.2 = vp.1 ++ (buildPart r'.build ++ '-' ::
            (r'.python ++ '-' :: (r'.abi ++ '-' ::
              (r'.platform ++ '.' :: 'w' :: 'h' :: 'l' :: t')))) := by
          rw [← hs1', hs1, hvp1]
        exact List.append_cancel_left hcat
      exact matchAfterVersion_min hfvp' hpy' hab' hpl' ht' hvp2 hbeq
  · simp at hfnp

/-! ### Invariants of the accumulation loop -/

theorem dictGet_mem {m : List (Str × List Str)} {k : Str} {v : List Str}
    (h : dictGet m k = some v) : (k, v) ∈ m := by
  induction m with
  | nil => simp [dictGet] at h
  | cons q rest ih =>
    obtain ⟨k', v'⟩ := q
    simp only [dictGet] at h
    split at h
    · next heq =>
      obtain rfl := Option.some.inj h
      subst heq
      exact List.mem_cons_self _ _
    · exact List.mem_cons_of_mem _ (ih h)

theorem dictSet_mem {m : List (Str × List Str)} {k : Str} {v : List Str}
    {p : Str × List Str} (h : p ∈ dictSet m k v) : p ∈ m ∨ p = (k, v) := by
  induction m with
  | nil =>
    simp only [dictSet, List.mem_singleton] at h
    exact Or.inr h
  | cons q rest ih =>
    obtain ⟨k', v'⟩ := q
    simp only [dictSet] at h
    split at h
    · rcases List.mem_cons.mp h with rfl | hm
      · exact Or.inr rfl
      · exact Or.inl (List.mem_cons_of_mem _ hm)
    · rcases List.mem_cons.mp h with rfl | hm
      · exact Or.inl (List.mem_cons_self _ _)
      · rcases ih hm with hm' | hm'
        · exact Or.inl (List.mem_cons_of_mem _ hm')
        · exact Or.inr hm'

theorem addWheel_inv {acc : List (Str × List Str) × List Str}
    (hinv : AccInv acc) (w : Str) : AccInv (addWheel acc w) := by
  cases hp : parse_wheel_filename w with
  | error e =>
    have heq : addWheel acc w = acc := by unfold addWheel; rw [hp]
    rw [heq]; exact hinv
  | ok info =>
    have heq : addWheel acc w =
        (dictSet acc.1 info.name (pySorted ((dictGet acc.1 info.name).getD [] ++ [w])),
         pySorted (acc.2 ++ [w])) := by unfold addWheel; rw [hp]
    rw [heq]
    obtain ⟨h1, h2, h3, h4⟩ := hinv
    refine ⟨?_, ?_, ?_, pySorted_pairwise _⟩
    · intro p hmem
      rcases dictSet_mem hmem with hm | rfl
      · exact h1 p hm
      · exact pySorted_pairwise _
    · intro p hmem f hf
      have htgt : f ∈ pySorted (acc.2 ++ [w]) ↔ (f ∈ acc.2 ∨ f = w) := by
        simp [pySorted_mem]
      rcases dictSet_mem hmem with hm | rfl
      · exact htgt.mpr (Or.inl (h2 p hm f hf))
      · have hf' : f ∈ (dictGet acc.1 info.name).getD [] ∨ f = w := by
          simpa [pySorted_mem] using hf
        rcases hf' with hc | rfl
        · cases hget : dictGet acc.1 info.name with
          | none => rw [hget] at hc; simp at hc
          | some cur =>
            rw [hget] at hc
            exact htgt.mpr (Or.inl (h2 _ (dictGet_mem hget) f hc))
        · exact htgt.mpr (Or.inr rfl)
    · intro p hmem f hf
      rcases dictSet_mem hmem with hm | rfl
      · exact h3 p hm f hf
      · have hf' : f ∈ (dictGet acc.1 info.name).getD [] ∨ f = w := by
          simpa [pySorted_mem] using hf
        rcases hf' with hc | rfl
        · cases hget : dictGet acc.1 info.name with
          | none => rw [hget] at hc; simp at hc
          | some cur =>
            rw [hget] at hc
            exact h3 _ (dictGet_mem hget) f hc
        · exact ⟨info, hp, rfl⟩

theorem foldl_addWheel_inv (l : List Str) (acc : List (Str × List Str) × List Str)
    (h : AccInv acc) : AccInv (l.foldl addWheel acc) := by
  induction l generalizing acc with
  | nil => exact h
  | cons w ws ih => exact ih _ (addWheel_inv h w)

theorem foldl_addWheel_mem (l : List Str) (acc : List (Str × List Str) × List Str)
    (f : Str) :
    f ∈ (l.foldl addWheel acc).2 ↔
      f ∈ acc.2 ∨ (f ∈ l ∧ (parse_wheel_filename f).isOk = true) := by
  induction l generalizing acc with
  | nil => simp
  | cons w ws ih =>
    rw [List.foldl_cons, ih]
    cases hp : parse_wheel_filename w with
    | error e =>
      have heq : (addWheel acc w).2 = acc.2 := by unfold addWheel; rw [hp]
      rw [heq]
      constructor
      · rintro (h | ⟨hm, hok⟩)
        · exact Or.inl h
        · exact Or.inr ⟨List.mem_cons_of_mem _ hm, hok⟩
      · rintro (h | ⟨hm, hok⟩)
        · exact Or.inl h
        · rcases List.mem_cons.mp hm with rfl | hm'
          · rw [hp] at hok; simp [Except.isOk, Except.toBool] at hok
          · exact Or.inr ⟨hm', hok⟩
    | ok info =>
      have heq : (addWheel acc w).2 = pySorted (acc.2 ++ [w]) := by
        unfold addWheel; rw [hp]
      rw [heq]
      simp only [pySorted_mem, List.mem_append, List.mem_singleton, List.mem_cons,
        List.not_mem_nil, or_false]
      constructor
      · rintro ((h | rfl) | ⟨hm, hok⟩)
        · exact Or.inl h
        · exact Or.inr ⟨Or.inl rfl, by rw [hp]; rfl⟩
        · exact Or.inr ⟨Or.inr hm, hok⟩
      · rintro (h | ⟨(rfl | hm), hok⟩)
        · exact Or.inl (Or.inl h)
        · exact Or.inl (Or.inr rfl)
        · exact Or.inr ⟨hm, hok⟩

/-! ### Characterisation of `generate_indexes` and assorted helpers -/

theorem generate_indexes_err (dir : WheelsDir) (base : Str) (hd : dir.dirExists = false) :
    generate_indexes dir base =
      .error (.SourceNotFound "Wheels directory not found".data) := by
  unfold generate_indexes
  rw [hd]
  rfl

theorem generate_indexes_eq (dir : WheelsDir) (base : Str) (hd : dir.dirExists = true) :
    generate_indexes dir base = .ok
      { packages := ((pySorted (dir.files.filter matchesGlobWhl)).foldl addWheel ([], [])).1
        wheel_files := ((pySorted (dir.files.filter matchesGlobWhl)).foldl addWheel ([], [])).2
        pages := (((pySorted (dir.files.filter matchesGlobWhl)).foldl addWheel ([], [])).1).map
          (fun p => (p.1, generate_package_index p.1 p.2 base))
        rootHtml := generate_root_index
          ((((pySorted (dir.files.filter matchesGlobWhl)).foldl addWheel ([], [])).1).map
            (fun p => p.1)) } := by
  unfold generate_indexes
  rw [hd]
  rfl

theorem rstripSlash_append_slash (s : Str) : rstripSlash (s ++ ['/']) = rstripSlash s := by
  unfold rstripSlash
  simp [List.reverse_append, List.dropWhile_cons]

theorem dashSplit_ne_nil (s : Str) : dashSplit s ≠ [] := by
  cases s with
  | nil => simp [dashSplit]
  | cons c rest =>
    by_cases hc : c = '-'
    · simp [dashSplit, hc]
    · simp only [dashSplit, hc, if_neg]
      cases dashSplit rest <;> simp

theorem dashSegments_eq_count (s : Str) : dashSegments s = s.count '-' + 1 := by
  induction s with
  | nil => rfl
  | cons c rest ih =>
    by_cases hc : c = '-'
    · subst hc
      have h1 : dashSegments ('-' :: rest) = dashSegments rest + 1 := by
        simp [dashSegments, dashSplit]
      have h2 : ('-' :: rest).count '-' = rest.count '-' + 1 := by
        simp [List.count_cons]
      omega
    · obtain ⟨seg, segs, hd⟩ : ∃ seg segs, dashSplit rest = seg :: segs := by
        cases h : dashSplit rest with
        | nil => exact absurd h (dashSplit_ne_nil rest)
        | cons a b => exact ⟨a, b, rfl⟩
      have h1 : dashSegments (c :: rest) = dashSegments rest := by
        simp [dashSegments, dashSplit, hc, hd]
      have h2 : (c :: rest).count '-' = rest.count '-' := by
        simp [List.count_cons, beq_iff_eq, hc]
      omega

theorem suffix_ext {u v : Str} (h : u <:+ v) (w : Str) (c : Char) :
    u <:+ w ++ c :: v :=
  h.trans ((List.suffix_cons c v).trans (List.suffix_append w (c :: v)))

/-- Any matched filename ends in `.whl`, possibly followed by one newline
that the end anchor tolerates. -/
theorem reMatchWheel_ext {s : Str} {r : ParsedWheel} (h : reMatchWheel s = some r) :
    ('.' :: 'w' :: 'h' :: 'l' :: ([] : Str)) <:+ s ∨
    ('.' :: 'w' :: 'h' :: 'l' :: '\n' :: ([] : Str)) <:+ s := by
  obtain ⟨t, hsplit⟩ := reMatchWheel_sound h
  have h0 : ('.' :: 'w' :: 'h' :: 'l' :: t) <:+
      r.platform ++ '.' :: 'w' :: 'h' :: 'l' :: t := List.suffix_append _ _
  have h1 := suffix_ext h0 r.abi '-'
  have h2 := suffix_ext h1 r.python '-'
  have h3 := suffix_ext h2 (buildPart r.build) '-'
  have h4 := suffix_ext (h3.trans (List.suffix_append r.version _)) r.name '-'
  rw [← hsplit.1] at h4
  rcases hsplit.2.2.2.2.2.2.2 with rfl | rfl
  · exact Or.inl h4
  · exact Or.inr h4

/-- Any matched filename contains at least four dashes (five segments). -/
theorem reMatchWheel_dash_count {s : Str} {r : ParsedWheel}
    (h : reMatchWheel s = some r) : 4 ≤ s.count '-' := by
  obtain ⟨t, hsplit⟩ := reMatchWheel_sound h
  rw [hsplit.1]
  simp only [List.count_append, List.count_cons]
  simp
  omega

/-! ## The claims -/

/-- C1 (code bug): the claim says every hyperlink of both the root page and
the package pages is HTML-escaped.  The package pages do escape both the
`href` value and the link text, but `generate_root_index` interpolates the
package name into both without escaping.  For a source directory holding the
wheel `a&b-1.0-c-d-e.whl` the generated root page contains the raw text
`<a href="a&b/">a&b</a>`, although escaping would produce `a&amp;b`. -/
theorem C1_root_link_unescaped :
    summaryRootHtml (generate_indexes ⟨true, ["a&b-1.0-c-d-e.whl".data]⟩
        "https://example.com".data) =
      joinLines (rootHeader ++ ["  <a href=\"a&b/\">a&b</a><br/>".data] ++ htmlFooter) ∧
    escape "a&b/".data = "a&amp;b/".data ∧
    escape "a&b/".data ≠ "a&b/".data ∧
    summaryPages (generate_indexes ⟨true, ["a&b-1.0-c-d-e.whl".data]⟩
        "https://example.com".data) =
      [("a&b".data, joinLines (packageHeader "a&b".data
        ++ ["  <a href=\"https://example.com/a&amp;b-1.0-c-d-e.whl\">a&amp;b-1.0-c-d-e.whl</a><br/>".data]
        ++ htmlFooter))] := by
  exact ⟨by rfl, by rfl, by decide, by rfl⟩

/-- C2 counterexample: the claim says filenames with a segment count other
than five or six do not parse successfully, yet `a-b-c-d-e-f-g.whl` has
seven dash-separated segments and parses (the lazy `platform` group is
forced to absorb the extra dashed segments). -/
theorem C2_counterexample :
    dashSegments "a-b-c-d-e-f-g.whl".data = 7 ∧
    parse_wheel_filename "a-b-c-d-e-f-g.whl".data =
      .ok ⟨"a".data, "b".data, none, "c".data, "d".data, "e-f-g".data⟩ := by
  exact ⟨by rfl, by rfl⟩

/-- C2 (amended): `parse_wheel_filename` fails only with `InvalidFormat`
(carrying the offending filename); every filename with fewer than five
dash-separated segments fails that way, and so does every filename that does
not end in `.whl` (allowing the single trailing newline the pattern's `$`
anchor tolerates); but a filename with more than six segments can still
parse. -/
theorem C2_parse_errors (s : Str) :
    (∀ e, parse_wheel_filename s = .error e →
      e = .InvalidFormat ("Invalid wheel filename: ".data ++ s)) ∧
    (dashSegments s < 5 →
      parse_wheel_filename s =
        .error (.InvalidFormat ("Invalid wheel filename: ".data ++ s))) ∧
    (¬(('.' :: 'w' :: 'h' :: 'l' :: ([] : Str)) <:+ s ∨
        ('.' :: 'w' :: 'h' :: 'l' :: '\n' :: ([] : Str)) <:+ s) →
      parse_wheel_filename s =
        .error (.InvalidFormat ("Invalid wheel filename: ".data ++ s))) := by
  refine ⟨?_, ?_, ?_⟩
  · intro e he
    cases hm : reMatchWheel s with
    | none =>
      have hpf : parse_wheel_filename s =
          .error (.InvalidFormat ("Invalid wheel filename: ".data ++ s)) := by
        unfold parse_wheel_filename; rw [hm]
      rw [hpf] at he
      exact (Except.error.inj he).symm
    | some r =>
      have hpf : parse_wheel_filename s =
          .ok { r with name := normalize_package_name r.name } := by
        unfold parse_wheel_filename; rw [hm]
      rw [hpf] at he
      exact absurd he (by simp)
  · intro hlt
    cases hm : reMatchWheel s with
    | none => unfold parse_wheel_filename; rw [hm]
    | some r =>
      exfalso
      have h1 := reMatchWheel_dash_count hm
      have h2 := dashSegments_eq_count s
      omega
  · intro hsuf
    cases hm : reMatchWheel s with
    | none => unfold parse_wheel_filename; rw [hm]
    | some r => exact absurd (reMatchWheel_ext hm) hsuf

/-- C2 witness: `not-a-wheel.txt` (wrong extension) and `a-b.whl` (three
segments) both fail with `InvalidFormat`. -/
theorem C2_parse_errors_witness :
    parse_wheel_filename "not-a-wheel.txt".data =
      .error (.InvalidFormat ("Invalid wheel filename: ".data ++ "not-a-wheel.txt".data)) ∧
    parse_wheel_filename "a-b.whl".data =
      .error (.InvalidFormat ("Invalid wheel filename: ".data ++ "a-b.whl".data)) :=
  ⟨(C2_parse_errors "not-a-wheel.txt".data).2.2 (by decide),
   (C2_parse_errors "a-b.whl".data).2.1 (by decide)⟩

/-- C3 counterexample: the claim says the last three segments become the
tags.  `a-b-c-d-e-f.whl` is accepted, its dash-separated segments end in
`d`, `e`, `f`, yet the parsed tags are `c`, `d`, `e-f`: the `python` and
`abi` groups matched lazily from the left and `platform` absorbed the extra
segment. -/
theorem C3_counterexample :
    parse_wheel_filename "a-b-c-d-e-f.whl".data =
      .ok ⟨"a".data, "b".data, none, "c".data, "d".data, "e-f".data⟩ ∧
    dashSplit "a-b-c-d-e-f.whl".data =
      ["a".data, "b".data, "c".data, "d".data, "e".data, "f.whl".data] ∧
    ["c".data, "d".data, "e-f".data] ≠ ["d".data, "e".data, "f".data] := by
  exact ⟨by rfl, by rfl, by decide⟩

/-- C3 (amended): on every accepted filename the match is a genuine
decomposition along the pattern (in particular the build tag, when present,
is a digit-leading segment immediately after the version, and the platform
tag runs to the `.whl` extension); `name` takes the minimal match among all
decompositions, `version` the minimal match given `name`, and — the
correction — the tags are *not* matched greedily from the end: `python` and
`abi` also take minimal matches (given the earlier captures) and `platform`
takes whatever remains. -/
theorem C3_lazy_split {s : Str} {r : ParsedWheel} (h : reMatchWheel s = some r) :
    parse_wheel_filename s = .ok { r with name := normalize_package_name r.name } ∧
    (∃ t, WheelSplit s r t) ∧
    ∀ r' t', WheelSplit s r' t' →
      r.name.length ≤ r'.name.length ∧
      (r'.name = r.name → r.version.length ≤ r'.version.length) ∧
      (r'.name = r.name → r'.version = r.version → r'.build = r.build →
        r.python.length ≤ r'.python.length ∧
        (r'.python = r.python → r.abi.length ≤ r'.abi.length)) := by
  refine ⟨by unfold parse_wheel_filename; rw [h], reMatchWheel_sound h, ?_⟩
  intro r' t' h'
  exact ⟨reMatchWheel_min_name h h',
    fun hname => (reMatchWheel_min_rest h h' hname).1,
    fun hname hver hbld => (reMatchWheel_min_rest h h' hname).2 hver hbld⟩

/-- C3 witness: the amended statement instantiated on `a-b-c-d-e.whl`. -/
theorem C3_lazy_split_witness :
    parse_wheel_filename "a-b-c-d-e.whl".data =
      .ok { (⟨"a".data, "b".data, none, "c".data, "d".data, "e".data⟩ : ParsedWheel) with
            name := normalize_package_name "a".data } ∧
    (∃ t, WheelSplit "a-b-c-d-e.whl".data
      ⟨"a".data, "b".data, none, "c".data, "d".data, "e".data⟩ t) ∧
    ∀ r' t', WheelSplit "a-b-c-d-e.whl".data r' t' →
      "a".data.length ≤ r'.name.length ∧
      (r'.name = "a".data → "b".data.length ≤ r'.version.length) ∧
      (r'.name = "a".data → r'.version = "b".data → r'.build = none →
        "c".data.length ≤ r'.python.length ∧
        (r'.python = "c".data → "d".data.length ≤ r'.abi.length)) :=
  C3_lazy_split (s := "a-b-c-d-e.whl".data)
    (r := ⟨"a".data, "b".data, none, "c".data, "d".data, "e".data⟩) (by rfl)

/-- C4: name normalisation is idempotent:
`normalize(normalize(x)) = normalize(x)` for every string. -/
theorem C4_normalize_idempotent (x : Str) :
    normalize_package_name (normalize_package_name x) = normalize_package_name x :=
  normalize_package_name_idem x

/-- C5: in every successful run, each filename stored in a package group —
whose rendered page is exactly the page generated for that group — re-parses
successfully, and its parsed name normalises to the group's key. -/
theorem C5_roundtrip_grouping {dir : WheelsDir} {base_url : Str} {res : Summary}
    (h : generate_indexes dir base_url = .ok res)
    {key : Str} {ws : List Str} (hmem : (key, ws) ∈ res.packages)
    {f : Str} (hf : f ∈ ws) :
    (key, generate_package_index key ws base_url) ∈ res.pages ∧
    ∃ info, parse_wheel_filename f = Except.ok info ∧
      normalize_package_name info.name = key := by
  cases hd : dir.dirExists with
  | false =>
    rw [generate_indexes_err dir base_url hd] at h
    exact absurd h (by simp)
  | true =>
    rw [generate_indexes_eq dir base_url hd] at h
    obtain rfl := (Except.ok.inj h).symm
    constructor
    · exact List.mem_map.mpr ⟨(key, ws), hmem, rfl⟩
    · have hinv := foldl_addWheel_inv (pySorted (dir.files.filter matchesGlobWhl)) ([], [])
        ⟨by simp, by simp, by simp, List.Pairwise.nil⟩
      obtain ⟨info, hparse, hname⟩ := hinv.2.2.1 (key, ws) hmem f hf
      refine ⟨info, hparse, ?_⟩
      obtain ⟨raw, hraw⟩ : ∃ raw, info.name = normalize_package_name raw := by
        cases hm : reMatchWheel f with
        | none =>
          have hpf : parse_wheel_filename f =
              .error (.InvalidFormat ("Invalid wheel filename: ".data ++ f)) := by
            unfold parse_wheel_filename; rw [hm]
          rw [hpf] at hparse
          exact absurd hparse (by simp)
        | some r0 =>
          have hpf : parse_wheel_filename f =
              .ok { r0 with name := normalize_package_name r0.name } := by
            unfold parse_wheel_filename; rw [hm]
          rw [hpf] at hparse
          exact ⟨r0.name, by rw [← Except.ok.inj hparse]⟩
      have hname' : info.name = key := hname
      rw [hraw, normalize_package_name_idem, ← hraw]
      exact hname'

/-- C5 witness: the round trip on a concrete one-wheel run. -/
theorem C5_roundtrip_grouping_witness :
    ("flash-attn".data, generate_package_index "flash-attn".data
        ["flash_attn-2.5.0-cp312-cp312-linux_x86_64.whl".data]
        "https://example.com/releases".data)
      ∈ ((generate_indexes ⟨true, ["flash_attn-2.5.0-cp312-cp312-linux_x86_64.whl".data]⟩
            "https://example.com/releases".data).toOption.getD ⟨[], [], [], []⟩).pages ∧
    ∃ info, parse_wheel_filename "flash_attn-2.5.0-cp312-cp312-linux_x86_64.whl".data
        = Except.ok info ∧
      normalize_package_name info.name = "flash-attn".data := by
  have h : generate_indexes ⟨true, ["flash_attn-2.5.0-cp312-cp312-linux_x86_64.whl".data]⟩
      "https://example.com/releases".data =
      .ok ((generate_indexes ⟨true, ["flash_attn-2.5.0-cp312-cp312-linux_x86_64.whl".data]⟩
        "https://example.com/releases".data).toOption.getD ⟨[], [], [], []⟩) := by rfl
  exact C5_roundtrip_grouping h (by decide) (by decide)

/-- C6: the spec's example filename parses to exactly the documented
fields. -/
theorem C6_example_parse :
    parse_wheel_filename "Flash.Attn_extra-2.5.0-1-cp312-cp312-manylinux2014_x86_64.whl".data =
      .ok ⟨"flash-attn-extra".data, "2.5.0".data, some "1".data, "cp312".data, "cp312".data,
        "manylinux2014_x86_64".data⟩ := by
  rfl

/-- C7: a package page is the fixed document whose link entries, in
alphabetical order of filename, carry `href` equal to the base url with
trailing slashes stripped, a `/`, and the filename, and link text equal to
the filename (both HTML-escaped in the serialisation); supplying the base
url with a trailing slash changes nothing. -/
theorem C7_package_page (package_name : Str) (wheels : List Str) (base_url : Str) :
    generate_package_index package_name wheels base_url =
      joinLines (packageHeader package_name
        ++ (pySorted wheels).map (fun wheel =>
            "  <a href=\"".data ++ escape (rstripSlash base_url ++ '/' :: wheel)
              ++ "\">".data ++ escape wheel ++ "</a><br/>".data)
        ++ htmlFooter) ∧
    (pySorted wheels).Perm wheels ∧
    List.Pairwise (fun a b => lexLe a b = true) (pySorted wheels) ∧
    generate_package_index package_name wheels (base_url ++ ['/']) =
      generate_package_index package_name wheels base_url := by
  refine ⟨rfl, pySorted_perm _, pySorted_pairwise _, ?_⟩
  unfold generate_package_index
  rw [rstripSlash_append_slash]

/-- C8: the root page is the fixed document with exactly one link per
distinct normalised package name — `href` the name plus a trailing slash,
text the name, each followed by a line break — in ascending alphabetical
order. -/
theorem C8_root_page (packages : List Str) :
    generate_root_index packages =
      joinLines (rootHeader
        ++ (pySorted (packages.map normalize_package_name).dedup).map (fun p =>
            "  <a href=\"".data ++ p ++ "/\">".data ++ p ++ "</a><br/>".data)
        ++ htmlFooter) ∧
    (∀ x, x ∈ pySorted (packages.map normalize_package_name).dedup ↔
      ∃ p ∈ packages, normalize_package_name p = x) ∧
    (pySorted (packages.map normalize_package_name).dedup).Nodup ∧
    List.Pairwise (fun a b => lexLe a b = true)
      (pySorted (packages.map normalize_package_name).dedup) := by
  refine ⟨rfl, ?_, ?_, pySorted_pairwise _⟩
  · intro x
    rw [pySorted_mem, List.mem_dedup, List.mem_map]
  · exact ((pySorted_perm _).nodup_iff).mpr (List.nodup_dedup _)

/-- C9: a missing source directory makes `generate_indexes` fail with
`SourceNotFound` and the command exit nonzero; an existing directory with no
matching archives exits 0, produces the empty-but-valid root index and
creates no package pages. -/
theorem C9_missing_and_empty (dir : WheelsDir) (base_url : Str) :
    (dir.dirExists = false →
      generate_indexes dir base_url =
        .error (.SourceNotFound "Wheels directory not found".data) ∧
      mainExitCode dir base_url = 1) ∧
    (dir.dirExists = true → dir.files.filter matchesGlobWhl = [] →
      mainExitCode dir base_url = 0 ∧
      generate_indexes dir base_url = .ok
        { packages := [], wheel_files := [], pages := [],
          rootHtml := joinLines (rootHeader ++ htmlFooter) }) := by
  constructor
  · intro hd
    have he := generate_indexes_err dir base_url hd
    refine ⟨he, ?_⟩
    unfold mainExitCode
    rw [he]
  · intro hd hempty
    have he := generate_indexes_eq dir base_url hd
    rw [hempty] at he
    have he' : generate_indexes dir base_url = .ok
        { packages := [], wheel_files := [], pages := [],
          rootHtml := joinLines (rootHeader ++ htmlFooter) } := he.trans (by rfl)
    refine ⟨?_, he'⟩
    unfold mainExitCode
    rw [he']

/-- C9 witness: a missing directory and a directory holding only
`README.md`. -/
theorem C9_missing_and_empty_witness :
    (generate_indexes ⟨false, []⟩ "https://example.com".data =
        .error (.SourceNotFound "Wheels directory not found".data) ∧
      mainExitCode ⟨false, []⟩ "https://example.com".data = 1) ∧
    (mainExitCode ⟨true, ["README.md".data]⟩ "https://example.com".data = 0 ∧
      generate_indexes ⟨true, ["README.md".data]⟩ "https://example.com".data = .ok
        { packages := [], wheel_files := [], pages := [],
          rootHtml := joinLines (rootHeader ++ htmlFooter) }) :=
  ⟨(C9_missing_and_empty ⟨false, []⟩ "https://example.com".data).1 rfl,
   (C9_missing_and_empty ⟨true, ["README.md".data]⟩ "https://example.com".data).2 rfl (by rfl)⟩

/-- C10: in every successful run's summary, `wheel_files` is sorted and
holds exactly the globbed filenames that parsed; every package tuple is
sorted; and every grouped filename appears in `wheel_files`. -/
theorem C10_summary_invariants {dir : WheelsDir} {base_url : Str} {res : Summary}
    (h : generate_indexes dir base_url = .ok res) :
    List.Pairwise (fun a b => lexLe a b = true) res.wheel_files ∧
    (∀ f, f ∈ res.wheel_files ↔
      f ∈ dir.files ∧ matchesGlobWhl f = true ∧ (parse_wheel_filename f).isOk = true) ∧
    (∀ p ∈ res.packages, List.Pairwise (fun a b => lexLe a b = true) p.2) ∧
    (∀ p ∈ res.packages, ∀ f ∈ p.2, f ∈ res.wheel_files) := by
  cases hd : dir.dirExists with
  | false =>
    rw [generate_indexes_err dir base_url hd] at h
    exact absurd h (by simp)
  | true =>
    rw [generate_indexes_eq dir base_url hd] at h
    obtain rfl := (Except.ok.inj h).symm
    have hinv := foldl_addWheel_inv (pySorted (dir.files.filter matchesGlobWhl)) ([], [])
      ⟨by simp, by simp, by simp, List.Pairwise.nil⟩
    refine ⟨hinv.2.2.2, ?_, hinv.1, hinv.2.1⟩
    intro f
    rw [foldl_addWheel_mem]
    simp [pySorted_mem, List.mem_filter, and_assoc]

/-- C10 witness: the invariants instantiated on a concrete two-wheel run
(one of the files malformed). -/
theorem C10_summary_invariants_witness :
    List.Pairwise (fun a b => lexLe a b = true)
      ((generate_indexes ⟨true, ["xformers-0.0.23-1-cp311-cp311-manylinux2014_x86_64.whl".data,
          "not-a-wheel.whl".data, "flash_attn-2.5.0-cp312-cp312-linux_x86_64.whl".data]⟩
        "https://example.com".data).toOption.getD ⟨[], [], [], []⟩).wheel_files ∧
    (∀ f, f ∈ ((generate_indexes ⟨true, ["xformers-0.0.23-1-cp311-cp311-manylinux2014_x86_64.whl".data,
          "not-a-wheel.whl".data, "flash_attn-2.5.0-cp312-cp312-linux_x86_64.whl".data]⟩
        "https://example.com".data).toOption.getD ⟨[], [], [], []⟩).wheel_files ↔
      f ∈ ["xformers-0.0.23-1-cp311-cp311-manylinux2014_x86_64.whl".data,
          "not-a-wheel.whl".data, "flash_attn-2.5.0-cp312-cp312-linux_x86_64.whl".data] ∧
        matchesGlobWhl f = true ∧ (parse_wheel_filename f).isOk = true) ∧
    (∀ p ∈ ((generate_indexes ⟨true, ["xformers-0.0.23-1-cp311-cp311-manylinux2014_x86_64.whl".data,
          "not-a-wheel.whl".data, "flash_attn-2.5.0-cp312-cp312-linux_x86_64.whl".data]⟩
        "https://example.com".data).toOption.getD ⟨[], [], [], []⟩).packages,
      List.Pairwise (fun a b => lexLe a b = true) p.2) ∧
    (∀ p ∈ ((generate_indexes ⟨true, ["xformers-0.0.23-1-cp311-cp311-manylinux2014_x86_64.whl".data,
          "not-a-wheel.whl".data, "flash_attn-2.5.0-cp312-cp312-linux_x86_64.whl".data]⟩
        "https://example.com".data).toOption.getD ⟨[], [], [], []⟩).packages,
      ∀ f ∈ p.2, f ∈ ((generate_indexes ⟨true, ["xformers-0.0.23-1-cp311-cp311-manylinux2014_x86_64.whl".data,
          "not-a-wheel.whl".data, "flash_attn-2.5.0-cp312-cp312-linux_x86_64.whl".data]⟩
        "https://example.com".data).toOption.getD ⟨[], [], [], []⟩).wheel_files) := by
  have h : generate_indexes ⟨true, ["xformers-0.0.23-1-cp311-cp311-manylinux2014_x86_64.whl".data,
        "not-a-wheel.whl".data, "flash_attn-2.5.0-cp312-cp312-linux_x86_64.whl".data]⟩
      "https://example.com".data =
      .ok ((generate_indexes ⟨true, ["xformers-0.0.23-1-cp311-cp311-manylinux2014_x86_64.whl".data,
        "not-a-wheel.whl".data, "flash_attn-2.5.0-cp312-cp312-linux_x86_64.whl".data]⟩
        "https://example.com".data).toOption.getD ⟨[], [], [], []⟩) := by rfl
  exact C10_summary_invariants h

end GenerateIndex
